import Mathlib

/-!
Verification of the Job Search Monitor frontend core: the printable-report
paginators of ReportPrintView (history deduplication, entry weighting and
the greedy page-packing loops), the AnalyticsReport metrics shape, the
recent-activity display order of AnalyticsDashboard, and the stage grouping
of KanbanBoard.

Conventions of the embedding:
- JavaScript string lowercasing is modelled per character
  (`lowerString`); all strings involved are ASCII.
- The weight arithmetic of the weight-based paginator uses the decimal
  values 1.0, 0.3, 7.5, 10.5; weights are represented here in tenths of a
  weight unit (10, 3, 75, 105) so that all sums are exact naturals.
- Array push/append is modelled by appending at the end of a list.
-/

namespace JobSearchMonitor

/-- Per-character lowercasing, modelling JavaScript's toLowerCase for the
ASCII strings this code compares. -/
def lowerString (s : String) : String := ⟨s.data.map Char.toLower⟩

/-- A history item of a DetailedVacancy, as in the DetailedVacancy
interface of ReportPrintView. -/
structure HistoryItem where
  date : String
  status : String
  comment : String
deriving DecidableEq

/-- A detailed report entry, as in the DetailedVacancy interface of
ReportPrintView. -/
structure DetailedVacancy where
  company : String
  position : String
  current_stage : String
  history : List HistoryItem
deriving DecidableEq

/-- History cleanup of ReportPrintView's load: drop a "Created" item when
some item of the same history has a case-insensitively "new" status and an
identical date, then rename case-insensitively "new" statuses to
"Opened". -/
def uniqueHistory (l : List HistoryItem) : List HistoryItem :=
  (l.filter (fun h =>
    !(h.status == "Created" &&
      l.any (fun other => lowerString other.status == "new" && other.date == h.date)))).map
    (fun h => if lowerString h.status == "new" then { h with status := "Opened" } else h)

/-- Entry weight of the weight-based ReportPrintView, in tenths: 1 plus 0.3
for a deduplicated history longer than 3, plus another 0.3 for one longer
than 6. -/
def entryWeight (uh : List HistoryItem) : Nat :=
  10 + (if uh.length > 3 then 3 else 0) + (if uh.length > 6 then 3 else 0)

/-- The cleaned entry built by both ReportPrintView versions: the entry
with its history replaced by the deduplicated, relabeled history. -/
def cleanEntry (v : DetailedVacancy) : DetailedVacancy :=
  { v with history := uniqueHistory v.history }

/-- The processed entry of the weight-based ReportPrintView: the cleaned
entry paired with its weight (in tenths). -/
def processEntry (v : DetailedVacancy) : DetailedVacancy × Nat :=
  (cleanEntry v, entryWeight (uniqueHistory v.history))

/-- First-page capacity of the weight-based paginator, in tenths
(7.5 weight units). -/
def FIRST_PAGE_MAX_WEIGHT : Nat := 75

/-- Capacity of every page after the first, in tenths (10.5 weight
units). -/
def OTHER_PAGE_MAX_WEIGHT : Nat := 105

/-- Mutable state of the pagination loop of the weight-based
ReportPrintView: the closed chunks, the chunk being filled, its
accumulated weight, and whether the current chunk is still the first
page. -/
structure PagState where
  chunks : List (List (DetailedVacancy × Nat))
  currentChunk : List (DetailedVacancy × Nat)
  currentWeight : Nat
  isFirstPage : Bool

/-- One iteration of the weight-based pagination loop: close the current
chunk when the item would push it over the applicable capacity and it is
nonempty, otherwise accumulate the item into it. -/
def pagStep (s : PagState) (item : DetailedVacancy × Nat) : PagState :=
  let maxWeight := if s.isFirstPage then FIRST_PAGE_MAX_WEIGHT else OTHER_PAGE_MAX_WEIGHT
  if s.currentWeight + item.2 > maxWeight ∧ s.currentChunk.length > 0 then
    { chunks := s.chunks ++ [s.currentChunk], currentChunk := [item],
      currentWeight := item.2, isFirstPage := false }
  else
    { chunks := s.chunks, currentChunk := s.currentChunk ++ [item],
      currentWeight := s.currentWeight + item.2, isFirstPage := s.isFirstPage }

/-- The final push after the pagination loop: the last chunk is pushed when
it is nonempty, or when no chunk was produced at all. -/
def pagFinish (s : PagState) : List (List (DetailedVacancy × Nat)) :=
  if s.currentChunk.length > 0 ∨ s.chunks.length = 0 then s.chunks ++ [s.currentChunk]
  else s.chunks

/-- The weight-based pagination loop of ReportPrintView over already
weighted items. -/
def paginateWeighted (items : List (DetailedVacancy × Nat)) :
    List (List (DetailedVacancy × Nat)) :=
  pagFinish (items.foldl pagStep ⟨[], [], 0, true⟩)

/-- The full weight-based pipeline of ReportPrintView's load: clean and
weight each entry, then paginate. -/
def paginate (entries : List DetailedVacancy) : List (List (DetailedVacancy × Nat)) :=
  paginateWeighted (entries.map processEntry)

/-- Total weight of a page, in tenths. -/
def pageWeight (p : List (DetailedVacancy × Nat)) : Nat := (p.map Prod.snd).sum

/-- A page respects a capacity, or is a single over-capacity entry placed
alone. -/
def pageOk (cap : Nat) (p : List (DetailedVacancy × Nat)) : Prop :=
  pageWeight p ≤ cap ∨ (p.length = 1 ∧ cap < pageWeight p)

/-- Every page respects its capacity up to the single over-capacity entry
exception: 7.5 units for the first page, 10.5 for the rest. -/
def pagesOk : List (List (DetailedVacancy × Nat)) → Prop
  | [] => True
  | p :: rest =>
    pageOk FIRST_PAGE_MAX_WEIGHT p ∧ ∀ q ∈ rest, pageOk OTHER_PAGE_MAX_WEIGHT q

/-- Every page is strictly within its capacity: 7.5 units for the first
page, 10.5 for the rest, with no exception. -/
def pagesWithinCap : List (List (DetailedVacancy × Nat)) → Prop
  | [] => True
  | p :: rest =>
    pageWeight p ≤ FIRST_PAGE_MAX_WEIGHT ∧ ∀ q ∈ rest, pageWeight q ≤ OTHER_PAGE_MAX_WEIGHT

/-- The loop invariant of the weight-based pagination loop. -/
def PagInv (s : PagState) : Prop :=
  (s.isFirstPage = true ↔ s.chunks = []) ∧
  s.currentWeight = pageWeight s.currentChunk ∧
  (s.currentWeight ≤ (if s.isFirstPage then FIRST_PAGE_MAX_WEIGHT else OTHER_PAGE_MAX_WEIGHT) ∨
    s.currentChunk.length = 1) ∧
  pagesOk s.chunks

/-- The while loop of the count-based ReportPrintView: slice 10 entries per
page off the remaining list; the explicit bound only witnesses that the
loop removes at least one element per iteration. -/
def restPagesAux : Nat → List DetailedVacancy → List (List DetailedVacancy)
  | _, [] => []
  | 0, _ :: _ => []
  | fuel + 1, a :: r => ((a :: r).take 10) :: restPagesAux fuel ((a :: r).drop 10)

/-- The count-based pagination of the other ReportPrintView version: at
most 6 cleaned entries on the first page, 10 per page after, and a single
empty page for an empty report. -/
def paginateByCount (cleaned : List DetailedVacancy) : List (List DetailedVacancy) :=
  (if (cleaned.take 6).length > 0 then [cleaned.take 6] else []) ++
    restPagesAux cleaned.length (cleaned.drop 6) ++
    (if cleaned.length = 0 then [[]] else [])

/-- The count-based pipeline: clean each entry, then paginate by count. -/
def paginateCountView (entries : List DetailedVacancy) : List (List DetailedVacancy) :=
  paginateByCount (entries.map cleanEntry)

/-- The weight-based pipeline seen as pages of entries (weights
dropped), for comparison with the count-based pipeline. -/
def paginateWeightView (entries : List DetailedVacancy) : List (List DetailedVacancy) :=
  (paginate entries).map (List.map Prod.fst)

/-- Shape of a field of AnalyticsReport.metrics: a category record with
count and ids, or a plain number. -/
inductive MetricShape where
  | categoryShape
  | numberShape
deriving DecidableEq

/-- A category of AnalyticsReport.metrics as declared in
frontend/src/types/index.ts: a count and a list of vacancy ids. -/
structure MetricCategory where
  count : Int
  ids : List String

/-- The metrics object of AnalyticsReport as declared in
frontend/src/types/index.ts: every named category is a MetricCategory
except activities_count, which is a plain number. -/
structure AnalyticsMetrics where
  new_vacancies_count : MetricCategory
  activities_count : Int
  applications_sent : MetricCategory
  responses : MetricCategory
  interviews : MetricCategory
  offers : MetricCategory
  rejected : MetricCategory
  closed : MetricCategory

/-- The declared shape of each named field of AnalyticsReport.metrics,
read off the AnalyticsReport interface of frontend/src/types/index.ts. -/
def metricsFieldShape (field : String) : Option MetricShape :=
  if field = "new_vacancies_count" then some .categoryShape
  else if field = "activities_count" then some .numberShape
  else if field = "applications_sent" then some .categoryShape
  else if field = "responses" then some .categoryShape
  else if field = "interviews" then some .categoryShape
  else if field = "offers" then some .categoryShape
  else if field = "rejected" then some .categoryShape
  else if field = "closed" then some .categoryShape
  else none

/-- The named metric categories of AnalyticsReport.metrics. -/
def metricCategoryFields : List String :=
  ["new_vacancies_count", "activities_count", "applications_sent", "responses",
   "interviews", "offers", "rejected", "closed"]

/-- An event as displayed by the recent-activity log of
AnalyticsDashboard; the timestamp is the epoch time obtained from the
event's timestamp string. -/
structure ActivityEvent where
  id : String
  vacancy_id : String
  timestamp : Int
  type : String
  comment : Option String
deriving DecidableEq

/-- The displayed recent-activity sequence of AnalyticsDashboard: a copy
of recent_activity sorted by timestamp descending. -/
def displayedActivity (l : List ActivityEvent) : List ActivityEvent :=
  l.mergeSort (fun a b => decide (b.timestamp ≤ a.timestamp))

/-- A vacancy as declared in frontend/src/types/index.ts; the stage is a
string so that the KanbanBoard fallback for unknown stages is
expressible. -/
structure Vacancy where
  id : String
  created_at : String
  updated_at : String
  company : String
  position : String
  location : Option String
  work_format : Option String
  link : Option String
  salary_min : Option Int
  salary_max : Option Int
  currency : Option String
  source : Option String
  contacts : Option String
  stage : String
  notes : Option String
deriving DecidableEq

/-- The stage column ids of KanbanBoard, in column order. -/
def COLUMNS : List String :=
  ["new", "applied", "response", "interview", "offer", "rejected", "closed"]

/-- The initial groups record of KanbanBoard's grouped useMemo: one empty
list per column id. -/
def initGroups : List (String × List Vacancy) := COLUMNS.map (fun c => (c, []))

/-- Push a vacancy onto the group stored under the given key. -/
def pushGroup (g : List (String × List Vacancy)) (key : String) (v : Vacancy) :
    List (String × List Vacancy) :=
  g.map (fun p => if p.1 = key then (p.1, p.2 ++ [v]) else p)

/-- One step of KanbanBoard's grouping: push the vacancy onto the group of
its stage when that key exists, otherwise onto the "new" group. -/
def groupStep (g : List (String × List Vacancy)) (v : Vacancy) :
    List (String × List Vacancy) :=
  if g.any (fun p => p.1 == v.stage) then pushGroup g v.stage v
  else pushGroup g "new" v

/-- KanbanBoard's grouped useMemo: fold every vacancy into the groups
record. -/
def grouped (vs : List Vacancy) : List (String × List Vacancy) :=
  vs.foldl groupStep initGroups

/-- The column a vacancy ends up in: its stage when that is a known
column, the "new" column otherwise. -/
def effectiveStage (v : Vacancy) : String :=
  if v.stage ∈ COLUMNS then v.stage else "new"

/-- The item an item of the history is relabeled to: a case-insensitively
"new" status becomes "Opened". -/
def historyRelabel (h : HistoryItem) : HistoryItem :=
  if lowerString h.status = "new" then { h with status := "Opened" } else h

/-- The drop condition of the history cleanup: a "Created" item for which
some item of the history has a case-insensitively "new" status and an
identical date. -/
def historyDropped (l : List HistoryItem) (h : HistoryItem) : Prop :=
  h.status = "Created" ∧ ∃ o ∈ l, lowerString o.status = "new" ∧ o.date = h.date

instance (l : List HistoryItem) (h : HistoryItem) : Decidable (historyDropped l h) := by
  unfold historyDropped
  exact inferInstance

/-- The pagination loop preserves the concatenation of all closed chunks
followed by the open chunk: it equals the items consumed so far. -/
theorem pag_foldl_flatten (items : List (DetailedVacancy × Nat)) :
    ∀ s : PagState,
      ((items.foldl pagStep s).chunks).flatten ++ (items.foldl pagStep s).currentChunk
        = s.chunks.flatten ++ s.currentChunk ++ items := by
  induction items with
  | nil => intro s; simp
  | cons item rest ih =>
    intro s
    rw [List.foldl_cons, ih (pagStep s item)]
    simp only [pagStep]
    split <;> split <;> simp [List.flatten_append]

/-- The weight-based pagination loop loses, reorders and duplicates
nothing. -/
theorem paginateWeighted_flatten (items : List (DetailedVacancy × Nat)) :
    (paginateWeighted items).flatten = items := by
  unfold paginateWeighted pagFinish
  have h := pag_foldl_flatten items ⟨[], [], 0, true⟩
  simp only [List.flatten_nil, List.nil_append] at h
  split
  · rw [List.flatten_append]
    simpa using h
  · rename_i hcond
    push_neg at hcond
    have hcur : (items.foldl pagStep ⟨[], [], 0, true⟩).currentChunk = [] :=
      List.length_eq_zero.mp (Nat.le_zero.mp hcond.1)
    rw [hcur, List.append_nil] at h
    exact h

/-- C1: concatenating, in order, the pages produced by the weight-based
paginator of ReportPrintView reproduces its input sequence exactly: no
item is lost, none is duplicated, and relative order is preserved, both
for the pagination loop over weighted items and for the full pipeline over
detailed report entries. -/
theorem paginate_flatten_eq :
    (∀ items : List (DetailedVacancy × Nat), (paginateWeighted items).flatten = items) ∧
    (∀ entries : List DetailedVacancy,
      (paginate entries).flatten = entries.map processEntry) := by
  refine ⟨paginateWeighted_flatten, fun entries => ?_⟩
  unfold paginate
  exact paginateWeighted_flatten (entries.map processEntry)

/-- C4: on an empty input both ReportPrintView paginators return exactly
one page, and that page is empty; both are total functions returning this
empty-default shape. -/
theorem paginate_empty_report :
    paginate [] = [[]] ∧ paginateByCount [] = [[]] := by
  constructor <;> rfl

/-- A chunk whose weight is bounded or which is a singleton satisfies the
page condition for that capacity. -/
theorem pageOk_of {cap : Nat} {c : List (DetailedVacancy × Nat)}
    (h : pageWeight c ≤ cap ∨ c.length = 1) : pageOk cap c := by
  rcases h with h | h
  · exact Or.inl h
  · by_cases hle : pageWeight c ≤ cap
    · exact Or.inl hle
    · exact Or.inr ⟨h, Nat.lt_of_not_le hle⟩

/-- Pushing a chunk that satisfies the page condition for the capacity of
the next page index preserves the page condition of all chunks. -/
theorem pagesOk_push {L : List (List (DetailedVacancy × Nat))}
    {c : List (DetailedVacancy × Nat)} (hL : pagesOk L)
    (hc : pageOk (if L = [] then FIRST_PAGE_MAX_WEIGHT else OTHER_PAGE_MAX_WEIGHT) c) :
    pagesOk (L ++ [c]) := by
  cases L with
  | nil =>
    simp only [List.nil_append]
    exact ⟨by simpa using hc, by simp⟩
  | cons p rest =>
    rw [List.cons_append]
    refine ⟨hL.1, fun q hq => ?_⟩
    rcases List.mem_append.mp hq with h | h
    · exact hL.2 q h
    · rw [List.mem_singleton.mp h]
      simpa using hc

/-- One step of the pagination loop preserves the loop invariant. -/
theorem pagStep_inv {s : PagState} (hs : PagInv s) (item : DetailedVacancy × Nat) :
    PagInv (pagStep s item) := by
  obtain ⟨hfc, hw, hcap, hok⟩ := hs
  simp only [pagStep]
  split <;> rename_i hf <;> split <;> rename_i hcond
  · -- first page, break
    refine ⟨by simp, by simp [pageWeight], Or.inr rfl, ?_⟩
    apply pagesOk_push hok
    apply pageOk_of
    have hch : s.chunks = [] := hfc.mp hf
    rw [if_pos hch, ← hw]
    simpa [hf] using hcap
  · -- first page, accumulate
    refine ⟨hfc, by simp [pageWeight, hw, List.sum_append], ?_, hok⟩
    by_cases hlen : 0 < s.currentChunk.length
    · left
      rw [if_pos hf]
      exact Nat.not_lt.mp (fun hlt => hcond ⟨hlt, hlen⟩)
    · right
      rw [List.length_eq_zero.mp (Nat.le_zero.mp (Nat.not_lt.mp hlen))]
      rfl
  · -- later page, break
    refine ⟨by simp, by simp [pageWeight], Or.inr rfl, ?_⟩
    apply pagesOk_push hok
    apply pageOk_of
    have hch : s.chunks ≠ [] := fun h => hf (hfc.mpr h)
    rw [if_neg hch, ← hw]
    have : s.isFirstPage = false := Bool.not_eq_true _ ▸ Bool.eq_false_iff.mpr (fun h => hf h)
    simpa [this] using hcap
  · -- later page, accumulate
    refine ⟨hfc, by simp [pageWeight, hw, List.sum_append], ?_, hok⟩
    by_cases hlen : 0 < s.currentChunk.length
    · left
      rw [if_neg hf]
      exact Nat.not_lt.mp (fun hlt => hcond ⟨hlt, hlen⟩)
    · right
      rw [List.length_eq_zero.mp (Nat.le_zero.mp (Nat.not_lt.mp hlen))]
      rfl

/-- The pagination loop preserves its invariant from any state. -/
theorem pag_foldl_inv (items : List (DetailedVacancy × Nat)) :
    ∀ s : PagState, PagInv s → PagInv (items.foldl pagStep s) := by
  induction items with
  | nil => intro s hs; exact hs
  | cons item rest ih => intro s hs; exact ih _ (pagStep_inv hs item)

/-- Every page of the weight-based pagination loop satisfies the page
condition for its capacity. -/
theorem paginateWeighted_pagesOk (items : List (DetailedVacancy × Nat)) :
    pagesOk (paginateWeighted items) := by
  have hinv : PagInv (items.foldl pagStep ⟨[], [], 0, true⟩) := by
    apply pag_foldl_inv
    exact ⟨by simp, by simp [pageWeight], Or.inl (by simp), trivial⟩
  obtain ⟨hfc, hw, hcap, hok⟩ := hinv
  unfold paginateWeighted pagFinish
  split
  · apply pagesOk_push hok
    apply pageOk_of
    by_cases hch : (items.foldl pagStep ⟨[], [], 0, true⟩).chunks = []
    · have hf := hfc.mpr hch
      rw [if_pos hch, ← hw]
      simpa [hf] using hcap
    · have hf : (items.foldl pagStep ⟨[], [], 0, true⟩).isFirstPage = false :=
        Bool.eq_false_iff.mpr (fun h => hch (hfc.mp h))
      rw [if_neg hch, ← hw]
      simpa [hf] using hcap
  · exact hok

/-- A list of pages all satisfying the page condition, whose entries all
weigh at most 1.6 units, is strictly within capacity on every page. -/
theorem pagesWithinCap_of_pagesOk {P : List (List (DetailedVacancy × Nat))}
    (hok : pagesOk P) (hwt : ∀ x ∈ P.flatten, x.2 ≤ 16) : pagesWithinCap P := by
  cases P with
  | nil => trivial
  | cons p rest =>
    obtain ⟨hp, hrest⟩ := hok
    constructor
    · rcases hp with h | ⟨hlen, hgt⟩
      · exact h
      · obtain ⟨x, rfl⟩ := List.length_eq_one.mp hlen
        have hx := hwt x (by simp)
        simp only [pageWeight, FIRST_PAGE_MAX_WEIGHT, List.map_cons, List.map_nil,
          List.sum_cons, List.sum_nil] at hgt
        omega
    · intro q hq
      rcases hrest q hq with h | ⟨hlen, hgt⟩
      · exact h
      · obtain ⟨x, rfl⟩ := List.length_eq_one.mp hlen
        have hx := hwt x (List.mem_flatten.mpr ⟨[x], List.mem_cons_of_mem p hq, by simp⟩)
        simp only [pageWeight, OTHER_PAGE_MAX_WEIGHT, List.map_cons, List.map_nil,
          List.sum_cons, List.sum_nil] at hgt
        omega

/-- C2: every page of the weight-based paginator of ReportPrintView stays
within its capacity, 7.5 weight units for the first page and 10.5 for any
later page (in tenths: 75 and 105), except that a page consisting of a
single entry whose own weight exceeds the capacity is still emitted with
that entry alone; for the actual pipeline, whose entry weights never
exceed 1.6 units, every page is within capacity outright. -/
theorem paginate_page_capacity :
    (∀ items : List (DetailedVacancy × Nat), pagesOk (paginateWeighted items)) ∧
    (∀ entries : List DetailedVacancy, pagesWithinCap (paginate entries)) := by
  refine ⟨paginateWeighted_pagesOk, fun entries => ?_⟩
  apply pagesWithinCap_of_pagesOk (paginateWeighted_pagesOk (entries.map processEntry))
  intro x hx
  rw [show (paginateWeighted (entries.map processEntry)).flatten = entries.map processEntry
    from paginateWeighted_flatten _] at hx
  obtain ⟨v, _, rfl⟩ := List.mem_map.mp hx
  show entryWeight (uniqueHistory v.history) ≤ 16
  unfold entryWeight
  split_ifs <;> omega

/-- Every chunk already closed by the pagination loop is nonempty, from
any state whose closed chunks are nonempty. -/
theorem pag_foldl_chunks_ne (items : List (DetailedVacancy × Nat)) :
    ∀ s : PagState, (∀ c ∈ s.chunks, c ≠ []) →
      ∀ c ∈ (items.foldl pagStep s).chunks, c ≠ [] := by
  induction items with
  | nil => intro s hs; exact hs
  | cons item rest ih =>
    intro s hs
    apply ih
    simp only [pagStep]
    split <;> rename_i hf <;> split <;> rename_i hcond
    · intro c hc
      rcases List.mem_append.mp hc with h | h
      · exact hs c h
      · rw [List.mem_singleton.mp h]
        exact List.length_pos.mp hcond.2
    · exact hs
    · intro c hc
      rcases List.mem_append.mp hc with h | h
      · exact hs c h
      · rw [List.mem_singleton.mp h]
        exact List.length_pos.mp hcond.2
    · exact hs

/-- The weight-based pagination loop emits no empty page on a nonempty
input. -/
theorem paginateWeighted_nonempty_pages (items : List (DetailedVacancy × Nat))
    (hne : items ≠ []) : ∀ p ∈ paginateWeighted items, p ≠ [] := by
  have hflat := pag_foldl_flatten items ⟨[], [], 0, true⟩
  simp only [List.flatten_nil, List.nil_append] at hflat
  have hchunks := pag_foldl_chunks_ne items ⟨[], [], 0, true⟩ (by intro c hc; cases hc)
  intro p hp
  unfold paginateWeighted pagFinish at hp
  split at hp
  · rcases List.mem_append.mp hp with h | h
    · exact hchunks p h
    · rw [List.mem_singleton.mp h]
      intro hcur
      rw [hcur, List.append_nil] at hflat
      rename_i hcond
      rcases hcond with hlen | hz
      · rw [hcur] at hlen
        exact absurd hlen (by simp)
      · rw [List.length_eq_zero.mp hz] at hflat
        exact hne (by simpa using hflat.symm)
  · exact hchunks p hp

/-- C10: on a nonempty input sequence of entries, every page emitted by
the weight-based paginator of ReportPrintView holds at least one entry; an
empty page arises only from an empty input. -/
theorem paginate_pages_nonempty (entries : List DetailedVacancy)
    (hne : entries ≠ []) : ∀ p ∈ paginate entries, p ≠ [] := by
  intro p hp
  apply paginateWeighted_nonempty_pages (entries.map processEntry) _ p hp
  simpa using hne

/-- C10 witness: the single page produced for one blank entry is
nonempty. -/
theorem paginate_pages_nonempty_witness :
    [processEntry ⟨"", "", "", []⟩] ≠ ([] : List (DetailedVacancy × Nat)) :=
  paginate_pages_nonempty [⟨"", "", "", []⟩] (by decide)
    [processEntry ⟨"", "", "", []⟩] (by decide)

/-- C3: the weight the paginator assigns an entry (in tenths of a weight
unit) is the 1.0 base plus 0.3 when its deduplicated history holds more
than 3 items plus a further 0.3 when it holds more than 6; every assigned
weight is 1.0, 1.3 or 1.6 (10, 13 or 16 tenths). -/
theorem paginate_entry_weight (v : DetailedVacancy) :
    (processEntry v).2 =
      10 + (if (uniqueHistory v.history).length > 3 then 3 else 0) +
        (if (uniqueHistory v.history).length > 6 then 3 else 0) ∧
    ((processEntry v).2 = 10 ∨ (processEntry v).2 = 13 ∨ (processEntry v).2 = 16) := by
  refine ⟨rfl, ?_⟩
  show entryWeight (uniqueHistory v.history) = 10 ∨
    entryWeight (uniqueHistory v.history) = 13 ∨ entryWeight (uniqueHistory v.history) = 16
  unfold entryWeight
  split_ifs <;> omega

/-- C5: the history cleanup of ReportPrintView equals the described
transformation (drop each "Created" item for which some item of the same
history carries a case-insensitively "new" status and an identical date,
then relabel case-insensitively "new" statuses to "Opened"); in
particular a history of a "Created" and a "new" item sharing one date
collapses to a single item labeled "Opened". -/
theorem uniqueHistory_dedup_relabel :
    (∀ l : List HistoryItem,
      uniqueHistory l = (l.filter (fun h => decide (¬ historyDropped l h))).map historyRelabel) ∧
    (∀ d c c' : String,
      uniqueHistory [⟨d, "Created", c⟩, ⟨d, "new", c'⟩] = [⟨d, "Opened", c'⟩]) := by
  constructor
  · intro l
    unfold uniqueHistory
    rw [List.filter_congr (fun h _ => ?_), List.map_congr_left (fun h _ => ?_)]
    · show (if lowerString h.status == "new" then _ else _) = historyRelabel h
      unfold historyRelabel
      rcases eq_or_ne (lowerString h.status) "new" with he | he
      · rw [if_pos (by simpa using he), if_pos he]
      · rw [if_neg (by simpa using he), if_neg he]
    · show (!(h.status == "Created" && l.any _)) = decide (¬ historyDropped l h)
      rw [Bool.eq_iff_iff]
      simp only [Bool.not_eq_eq_eq_not, Bool.not_true, Bool.and_eq_false_imp,
        decide_eq_true_eq, historyDropped, List.any_eq_true, List.any_eq_false,
        Bool.and_eq_true, beq_iff_eq]
      aesop
  · intro d c c'
    have h1 : (lowerString "Created" == "new") = false := by decide
    have h2 : (lowerString "new" == "new") = true := by decide
    have h3 : lowerString "new" = "new" := by decide
    unfold uniqueHistory
    simp [List.filter_cons, List.any_cons, h1, h2, h3]

/-- C6 counterexample: activities_count is one of the named metric
categories of AnalyticsReport.metrics, yet its declared shape is a plain
number, not a count-and-ids record. -/
theorem metrics_activities_shape_cex :
    "activities_count" ∈ metricCategoryFields ∧
      metricsFieldShape "activities_count" ≠ some MetricShape.categoryShape := by
  decide

/-- C6 amended: every named metric category of AnalyticsReport.metrics
except activities_count has the count-and-ids shape; activities_count is
declared as a plain number. -/
theorem metrics_category_shapes :
    metricsFieldShape "new_vacancies_count" = some MetricShape.categoryShape ∧
    metricsFieldShape "activities_count" = some MetricShape.numberShape ∧
    metricsFieldShape "applications_sent" = some MetricShape.categoryShape ∧
    metricsFieldShape "responses" = some MetricShape.categoryShape ∧
    metricsFieldShape "interviews" = some MetricShape.categoryShape ∧
    metricsFieldShape "offers" = some MetricShape.categoryShape ∧
    metricsFieldShape "rejected" = some MetricShape.categoryShape ∧
    metricsFieldShape "closed" = some MetricShape.categoryShape := by
  decide

/-- C7: the recent-activity log displayed by AnalyticsDashboard is exactly
report.recent_activity re-sorted by timestamp descending: a permutation of
the input in which every displayed event's timestamp is at least the
timestamp of every later-displayed event. -/
theorem recent_activity_display_order (l : List ActivityEvent) :
    (displayedActivity l).Perm l ∧
      List.Pairwise (fun a b => b.timestamp ≤ a.timestamp) (displayedActivity l) := by
  constructor
  · exact List.mergeSort_perm l _
  · have h := @List.sorted_mergeSort ActivityEvent
      (fun a b : ActivityEvent => decide (b.timestamp ≤ a.timestamp))
      (fun a b c hab hbc => by
        simp only [decide_eq_true_eq] at *
        exact le_trans hbc hab)
      (fun a b => by
        simp only [Bool.or_eq_true, decide_eq_true_eq]
        exact le_total b.timestamp a.timestamp)
      l
    refine h.imp ?_
    intro a b hab
    simpa using hab

/-- The fueled while loop of the count-based paginator concatenates back
to the list it sliced, whenever the fuel covers the list's length. -/
theorem restPagesAux_flatten :
    ∀ (fuel : Nat) (l : List DetailedVacancy), l.length ≤ fuel →
      (restPagesAux fuel l).flatten = l := by
  intro fuel
  induction fuel with
  | zero =>
    intro l hl
    rw [List.length_eq_zero.mp (Nat.le_zero.mp hl)]
    rfl
  | succ n ih =>
    intro l hl
    cases l with
    | nil => rfl
    | cons a r =>
      show ((a :: r).take 10 :: restPagesAux n ((a :: r).drop 10)).flatten = a :: r
      have hdrop : ((a :: r).drop 10).length ≤ n := by
        rw [List.length_drop]
        simp only [List.length_cons] at hl ⊢
        omega
      rw [List.flatten_cons, ih ((a :: r).drop 10) hdrop, List.take_append_drop]

/-- The count-based paginator concatenates back to its input. -/
theorem paginateByCount_flatten (cleaned : List DetailedVacancy) :
    (paginateByCount cleaned).flatten = cleaned := by
  unfold paginateByCount
  rcases eq_or_ne cleaned [] with rfl | hne
  · rfl
  · have hlen : 0 < cleaned.length := List.length_pos.mpr hne
    rw [if_pos (by simp [List.length_take]; omega), if_neg (by omega)]
    rw [List.append_nil, List.flatten_append, List.flatten_cons, List.flatten_nil,
      List.append_nil, restPagesAux_flatten cleaned.length (cleaned.drop 6) (by simp),
      List.take_append_drop]

/-- C8 counterexample: on eight blank entries (each of weight 1.0) the
count-based paginator splits the pages 6 and 2 while the weight-based
paginator splits them 7 and 1, so the two versions of ReportPrintView do
not produce the same pages. -/
theorem paginators_differ :
    paginateCountView (List.replicate 8 ⟨"", "", "", []⟩) ≠
      paginateWeightView (List.replicate 8 ⟨"", "", "", []⟩) := by
  decide

/-- C8 amended: the count-based paginator of one ReportPrintView version
and the weight-based paginator of the other need not emit identical pages,
but they agree after concatenation: flattening either one's pages yields
the cleaned entries in input order. -/
theorem paginators_flatten_agree (entries : List DetailedVacancy) :
    (paginateCountView entries).flatten = entries.map cleanEntry ∧
      (paginateWeightView entries).flatten = entries.map cleanEntry := by
  constructor
  · exact paginateByCount_flatten (entries.map cleanEntry)
  · unfold paginateWeightView paginate
    rw [← List.map_flatten, paginateWeighted_flatten (entries.map processEntry),
      List.map_map]
    rfl

/-- The column a vacancy is routed to is always a real column. -/
theorem effectiveStage_mem (v : Vacancy) : effectiveStage v ∈ COLUMNS := by
  unfold effectiveStage
  split
  · assumption
  · decide

/-- Pushing onto a keyed group of a column-shaped record updates exactly
that column's list. -/
theorem pushGroup_map (f : String → List Vacancy) (key : String) (v : Vacancy) :
    pushGroup (COLUMNS.map fun c => (c, f c)) key v
      = COLUMNS.map fun c => (c, if c = key then f c ++ [v] else f c) := by
  unfold pushGroup
  rw [List.map_map]
  apply List.map_congr_left
  intro c _
  by_cases h : c = key
  · simp [h]
  · simp [h]

/-- One grouping step of KanbanBoard appends the vacancy to the list of
its effective column and leaves every other column unchanged. -/
theorem groupStep_map (f : String → List Vacancy) (v : Vacancy) :
    groupStep (COLUMNS.map fun c => (c, f c)) v
      = COLUMNS.map fun c => (c, if c = effectiveStage v then f c ++ [v] else f c) := by
  unfold groupStep
  have hany : ((COLUMNS.map fun c => (c, f c)).any fun p => p.1 == v.stage)
      = decide (v.stage ∈ COLUMNS) := by
    rw [Bool.eq_iff_iff]
    simp only [List.any_eq_true, beq_iff_eq, decide_eq_true_eq]
    constructor
    · rintro ⟨p, hp, hps⟩
      obtain ⟨c, hc, rfl⟩ := List.mem_map.mp hp
      exact hps ▸ hc
    · intro h
      exact ⟨(v.stage, f v.stage), List.mem_map.mpr ⟨v.stage, h, rfl⟩, rfl⟩
  rw [hany]
  by_cases hmem : v.stage ∈ COLUMNS
  · rw [if_pos (by simpa using hmem), pushGroup_map]
    have he : effectiveStage v = v.stage := if_pos hmem
    rw [he]
  · rw [if_neg (by simpa using hmem), pushGroup_map]
    have he : effectiveStage v = "new" := if_neg hmem
    rw [he]

/-- Folding KanbanBoard's grouping step over the vacancies appends, per
column, exactly the vacancies whose effective column it is, in input
order. -/
theorem foldl_groupStep (vs : List Vacancy) :
    ∀ f : String → List Vacancy,
      List.foldl groupStep (COLUMNS.map fun c => (c, f c)) vs
        = COLUMNS.map fun c => (c, f c ++ vs.filter (fun v => effectiveStage v == c)) := by
  induction vs with
  | nil => intro f; simp
  | cons v vs ih =>
    intro f
    rw [List.foldl_cons, groupStep_map,
      ih (fun c => if c = effectiveStage v then f c ++ [v] else f c)]
    apply List.map_congr_left
    intro c _
    rw [List.filter_cons]
    by_cases h : effectiveStage v = c
    · rw [if_pos h.symm, if_pos (show (effectiveStage v == c) = true by simp [h])]
      simp
    · rw [if_neg (fun hh => h hh.symm),
        if_neg (show ¬(effectiveStage v == c) = true by simp [h])]

/-- KanbanBoard's grouped record is, column by column, the filter of the
input by effective column. -/
theorem grouped_eq (vs : List Vacancy) :
    grouped vs = COLUMNS.map fun c => (c, vs.filter (fun v => effectiveStage v == c)) := by
  unfold grouped
  simpa [initGroups] using foldl_groupStep vs (fun _ => [])

/-- Inserting one element at the front of the block of its key turns the
flattened blocks into the element followed by the old flattening, up to
permutation, for nodup keys. -/
theorem flatten_update_perm :
    ∀ l : List String, l.Nodup → ∀ c₀ : String, c₀ ∈ l →
      ∀ (g : String → List Vacancy) (v : Vacancy),
        ((l.map fun c => if c₀ = c then v :: g c else g c).flatten).Perm
          (v :: (l.map g).flatten) := by
  intro l
  induction l with
  | nil => intro _ c₀ hc₀; cases hc₀
  | cons a t ih =>
    intro hnd c₀ hc₀ g v
    obtain ⟨hat, hndt⟩ := List.nodup_cons.mp hnd
    by_cases h : c₀ = a
    · subst h
      rw [List.map_cons, if_pos rfl, List.flatten_cons]
      have htail : (t.map fun c => if c₀ = c then v :: g c else g c) = t.map g :=
        List.map_congr_left (fun c hc => if_neg (fun he => hat (by rw [he]; exact hc)))
      rw [htail, List.cons_append]
      exact List.Perm.refl _
    · have hc₀t : c₀ ∈ t := by
        rcases List.mem_cons.mp hc₀ with h1 | h1
        · exact absurd h1 h
        · exact h1
      rw [List.map_cons, if_neg h, List.flatten_cons, List.map_cons, List.flatten_cons]
      exact (List.Perm.append_left (g a) (ih hndt c₀ hc₀t g v)).trans List.perm_middle

/-- Flattening the per-column filters of the input is a permutation of the
input. -/
theorem grouped_flatten_perm (vs : List Vacancy) :
    ((COLUMNS.map fun c => vs.filter (fun v => effectiveStage v == c)).flatten).Perm vs := by
  induction vs with
  | nil => simp
  | cons v vs ih =>
    have hmap : (COLUMNS.map fun c => (v :: vs).filter (fun x => effectiveStage x == c))
        = COLUMNS.map fun c =>
            if effectiveStage v = c then v :: vs.filter (fun x => effectiveStage x == c)
            else vs.filter (fun x => effectiveStage x == c) := by
      apply List.map_congr_left
      intro c _
      rw [List.filter_cons]
      by_cases h : effectiveStage v = c
      · rw [if_pos (show (effectiveStage v == c) = true by simp [h]), if_pos h]
      · rw [if_neg (show ¬(effectiveStage v == c) = true by simp [h]), if_neg h]
    rw [hmap]
    exact (flatten_update_perm COLUMNS (by decide) (effectiveStage v) (effectiveStage_mem v)
      (fun c => vs.filter (fun x => effectiveStage x == c)) v).trans (ih.cons v)

/-- C9: KanbanBoard's grouping keeps the seven columns in order and places
every vacancy in exactly one column, the column of its stage when that
stage is a known column id and the "new" column otherwise; within each
column the input order is preserved (each column is the input filtered by
effective column), and the concatenation of all column groups is a
permutation of the input. -/
theorem kanban_grouping_partition (vs : List Vacancy) :
    (grouped vs).map Prod.fst = COLUMNS ∧
    (∀ c L, (c, L) ∈ grouped vs → L = vs.filter (fun v => effectiveStage v == c)) ∧
    (((grouped vs).map Prod.snd).flatten).Perm vs := by
  refine ⟨?_, ?_, ?_⟩
  · rw [grouped_eq, List.map_map]
    rw [show (Prod.fst ∘ fun c : String =>
      (c, vs.filter (fun v => effectiveStage v == c))) = id from rfl]
    exact List.map_id _
  · intro c L hm
    rw [grouped_eq] at hm
    obtain ⟨a, _, heq⟩ := List.mem_map.mp hm
    have h1 : a = c := congrArg Prod.fst heq
    have h2 : vs.filter (fun v => effectiveStage v == a) = L := congrArg Prod.snd heq
    rw [← h2, h1]
  · rw [grouped_eq, List.map_map]
    exact grouped_flatten_perm vs

end JobSearchMonitor
